import Mathlib

/-!
Verification of the post-processing analysis engine of the
ppginf-ufpr-production repository (src/post_processing.py).

The Python module is shallowly embedded below: pure numeric code becomes
Lean functions over Nat / Int / Rat (and over Real where the source works
with float square roots), fallible code returns Except, and the small
external collaborators (sklearn KMeans / DBSCAN / TSNE) are modelled from
the specification at their interface, each marked in its doc comment.
-/

set_option maxHeartbeats 1000000

namespace PostProcessing

/-- Distinct elements of a list in order of first occurrence, skipping an
accumulator of already seen elements.  This models the key order of a
Python Counter / dict built by insertion, which is the iteration order
Counter.most_common sorts stably. -/
def firstOccsFrom {α : Type} [DecidableEq α] : List α → List α → List α
  | [], _ => []
  | a :: l, seen =>
    if a ∈ seen then firstOccsFrom l seen else a :: firstOccsFrom l (a :: seen)

/-- Distinct elements of a list in order of first occurrence. -/
def firstOccs {α : Type} [DecidableEq α] (l : List α) : List α :=
  firstOccsFrom l []

/-- The element returned by Counter(l).most_common(1): the first element,
in first-occurrence order, whose multiplicity in l is maximal. -/
def mostCommon (l : List Nat) : Nat :=
  match firstOccs l with
  | [] => 0
  | h :: t => t.foldl (fun b d => if l.count b < l.count d then d else b) h

/-- Entry (i, j) of a matrix stored as a list of rows, with the ambient
default value for out-of-range indices (never reached under the bounds
hypotheses used below). -/
def matEntry {α : Type} [Inhabited α] (m : List (List α)) (i j : Nat) : α :=
  (m.getD i []).getD j default

/-- A persisted per-document vector record, reduced to the fields the
analysis pipeline reads: document_id, metadata.title, metadata.author,
metadata.summary and vector.embedding.  An absent, null or non-list
embedding is `none`. -/
structure DocRecord where
  document_id : String
  title : String
  author : String
  summary : String
  embedding : Option (List ℚ)
deriving DecidableEq, Inhabited, Repr

/-- Embedding of PostProcessor.extract_embeddings_matrix: map each record
to its embedding (empty list when missing), keep the non-empty ones, and
when several distinct lengths remain keep only the most frequent length
as computed by Counter.most_common. -/
def extract_embeddings_matrix (vectors : List DocRecord) : List (List ℚ) :=
  let embeddings := vectors.map (fun d => d.embedding.getD [])
  let valid_embeddings := embeddings.filter (fun e => 0 < e.length)
  if valid_embeddings = [] then []
  else
    let dimensions := valid_embeddings.map List.length
    if 1 < dimensions.dedup.length then
      let target_dim := mostCommon dimensions
      valid_embeddings.filter (fun e => e.length = target_dim)
    else valid_embeddings

/-- The documents that contribute a row to the embedding matrix, in load
order: records with a non-empty embedding, restricted to the majority
dimension when the dimensions disagree.  Mirrors
extract_embeddings_matrix at the record level. -/
def validDocs (vectors : List DocRecord) : List DocRecord :=
  let withEmb := vectors.filter (fun d => 0 < (d.embedding.getD []).length)
  if withEmb = [] then []
  else
    let dimensions := withEmb.map (fun d => (d.embedding.getD []).length)
    if 1 < dimensions.dedup.length then
      let target_dim := mostCommon dimensions
      withEmb.filter (fun d => (d.embedding.getD []).length = target_dim)
    else withEmb

/-- Modelled from the spec: the sklearn KMeans collaborator is external to
the repository; per the specification its fit_predict partitions n rows
into exactly k clusters with integer labels 0..k-1, one per row.  The
label values themselves are unconstrained; this model realises the contract. -/
def kmeansLabels (k n : Nat) : List Int :=
  (List.range n).map (fun i => ((i % k : Nat) : Int))

/-- Modelled from the spec: the sklearn DBSCAN collaborator is external to
the repository; per the specification it produces one label per row, each
label either a discovered cluster id 0..m-1 or -1 for noise.  This model
realises the all-noise outcome of that contract. -/
def dbscanLabels (n : Nat) : List Int :=
  List.replicate n (-1)

/-- Embedding of PostProcessor.cluster_documents: empty matrix short
circuits to an empty label list before any validation; otherwise the
cluster count defaults to max(2, floor(sqrt(n_rows))), kmeans and dbscan
dispatch to the collaborator models, and any other method name raises
ValueError.  Feature standardisation before kmeans does not change the
number or range of the returned labels and is absorbed into the
collaborator model. -/
def cluster_documents (embeddings : List (List ℚ)) (n_clusters : Option Nat)
    (method : String) : Except String (List Int) :=
  if embeddings.length = 0 then .ok []
  else
    let k := n_clusters.getD (max 2 (Nat.sqrt embeddings.length))
    if method = "kmeans" then .ok (kmeansLabels k embeddings.length)
    else if method = "dbscan" then .ok (dbscanLabels embeddings.length)
    else .error ("Unknown clustering method: " ++ method)

/-- Embedding of the perplexity adjustment inside PostProcessor.apply_tsne:
with n rows the maximal admissible perplexity is n - 1, and a requested
value of at least n - 1 is replaced by max(5, (n - 1) / 2). -/
def effectivePerplexity (n requested : Nat) : Nat :=
  let max_perplexity := n - 1
  if max_perplexity ≤ requested then max 5 (max_perplexity / 2) else requested

/-- Modelled from the spec: the sklearn TSNE optimizer is external to the
repository; per the specification fit_transform returns one
n_components-dimensional coordinate row per input row.  The coordinate
values are stochastic and unconstrained; this model realises the shape
contract. -/
def tsneEmbed (n_components : Nat) (_eff_perplexity : Nat)
    (embeddings : List (List ℚ)) : List (List ℚ) :=
  embeddings.map (fun _ => List.replicate n_components 0)

/-- Embedding of PostProcessor.apply_tsne: empty input returns an empty
matrix, otherwise the perplexity is clamped and the TSNE collaborator is
invoked. -/
def apply_tsne (embeddings : List (List ℚ)) (n_components : Nat)
    (requested : Nat) : List (List ℚ) :=
  if embeddings.length = 0 then []
  else tsneEmbed n_components (effectivePerplexity embeddings.length requested)
    embeddings

/-- A weighted undirected graph as built by networkx in this pipeline:
nodes in insertion order without duplicates, edges as (source, target,
weight) triples in insertion order. -/
structure SGraph (α : Type) where
  nodes : List String
  edges : List (String × String × α)
deriving DecidableEq, Repr

/-- Embedding of PostProcessor.create_network_graph: one node per document
id unconditionally, then for every pair i < j an edge carrying the
similarity value whenever similarity[i, j] >= threshold.  The node list
models the networkx node set, which collapses duplicate ids and keeps
first-insertion order. -/
def create_network_graph {α : Type} [LinearOrder α] [Inhabited α]
    (similarity_matrix : List (List α)) (doc_ids : List String)
    (threshold : α) : SGraph α :=
  let n_docs := doc_ids.length
  { nodes := firstOccs doc_ids
    edges := (List.range n_docs).flatMap (fun i =>
      ((List.range n_docs).filter (fun j => i < j)).filterMap (fun j =>
        let s := matEntry similarity_matrix i j
        if threshold ≤ s then
          some (doc_ids.getD i default, doc_ids.getD j default, s)
        else none)) }

/-- An undirected edge of weight w between a and b: stored in either
orientation. -/
def hasEdge {α : Type} (G : SGraph α) (a b : String) (w : α) : Prop :=
  (a, b, w) ∈ G.edges ∨ (b, a, w) ∈ G.edges

/-- The per-cluster document selection of run_full_analysis: indices i
with cluster_labels[i] = cluster_id are collected from the label list and
then used to index the full loaded vector list; the titles of the
documents so selected feed the cluster narration. -/
def clusterTitles (vectors : List DocRecord) (labels : List Int)
    (cluster_id : Int) : List String :=
  (((List.range labels.length).filter (fun i => labels.getD i 0 = cluster_id)).map
    (fun i => (vectors.getD i default).title))

/-- Companion to clusterTitles for the summaries fed to the word cloud and
the narration prompt. -/
def clusterSummaries (vectors : List DocRecord) (labels : List Int)
    (cluster_id : Int) : List String :=
  (((List.range labels.length).filter (fun i => labels.getD i 0 = cluster_id)).map
    (fun i => (vectors.getD i default).summary))

/-- Modelled from the spec: the narration the claim asserts, namely the
titles of the valid documents (the documents owning the embedding-matrix
rows) whose rows carry the given label. -/
def clusterTitlesSpec (vectors : List DocRecord) (labels : List Int)
    (cluster_id : Int) : List String :=
  (((List.range labels.length).filter (fun i => labels.getD i 0 = cluster_id)).map
    (fun i => ((validDocs vectors).getD i default).title))

/-- Embedding of the document_metadata list built by run_full_analysis:
one {document_id, title, author} triple per LOADED document. -/
def document_metadata (vectors : List DocRecord) : List (String × String × String) :=
  vectors.map (fun v => (v.document_id, v.title, v.author))

/-- The document id list run_full_analysis hands to the network builder:
one id per LOADED document. -/
def analysisDocIds (vectors : List DocRecord) : List String :=
  vectors.map (fun v => v.document_id)

/-- Dot product of two rows (truncating to the shorter row, as numpy
would only be called on equal-length rows). -/
def dotR (x y : List ℝ) : ℝ := (List.zipWith (fun a b => a * b) x y).sum

/-- Embedding of the sklearn cosine_similarity call: rows are normalised
and pairwise dot products taken, so entry (i, j) is
dot(xi, xj) / (norm(xi) * norm(xj)); a zero row keeps norm 0 and, with
the zero numerator, yields entry 0 exactly as sklearn does. -/
noncomputable def cosine_similarity (embeddings : List (List ℝ)) : List (List ℝ) :=
  embeddings.map (fun xi => embeddings.map (fun xj =>
    dotR xi xj / (Real.sqrt (dotR xi xi) * Real.sqrt (dotR xj xj))))

/-- Embedding of the sklearn euclidean_distances call: entry (i, j) is
the euclidean distance between rows i and j. -/
noncomputable def euclidean_distances (embeddings : List (List ℝ)) : List (List ℝ) :=
  embeddings.map (fun xi => embeddings.map (fun xj =>
    Real.sqrt (((List.zipWith (fun a b => a - b) xi xj).map (fun t => t * t)).sum)))

/-- np.max over a distance matrix.  All entries are nonnegative and the
diagonal contributes 0, so folding max from 0 computes the maximum
entry. -/
def matMax (m : List (List ℝ)) : ℝ :=
  (m.map (fun row => row.foldl max 0)).foldl max 0

/-- Embedding of scipy.stats.pearsonr on two rows: the centred dot
product over the product of centred norms. -/
noncomputable def pearsonr (x y : List ℝ) : ℝ :=
  let cx := x.map (fun t => t - x.sum / x.length)
  let cy := y.map (fun t => t - y.sum / y.length)
  dotR cx cy / Real.sqrt (dotR cx cx * dotR cy cy)

/-- Embedding of PostProcessor.compute_similarity_matrix: the empty
matrix short circuits to np.array([[]]) (one empty row) before any
validation; cosine and correlation produce similarity directly,
euclidean converts distances by 1 - d / max (all ones when every
distance is 0), and any other metric raises ValueError. -/
noncomputable def compute_similarity_matrix (embeddings : List (List ℝ))
    (metric : String) : Except String (List (List ℝ)) :=
  if embeddings.length = 0 then .ok [[]]
  else if metric = "cosine" then .ok (cosine_similarity embeddings)
  else if metric = "euclidean" then
    let distances := euclidean_distances embeddings
    let max_dist := matMax distances
    if 0 < max_dist then
      .ok (distances.map (fun row => row.map (fun d => 1 - d / max_dist)))
    else
      .ok (distances.map (fun row => row.map (fun _ => 1)))
  else if metric = "correlation" then
    .ok ((List.range embeddings.length).map (fun i =>
      (List.range embeddings.length).map (fun j =>
        if i = j then 1
        else pearsonr (embeddings.getD i []) (embeddings.getD j []))))
  else .error ("Unknown metric: " ++ metric)

/-- M is a square matrix of size n. -/
def isSquare (M : List (List ℝ)) (n : Nat) : Prop :=
  M.length = n ∧ ∀ row ∈ M, row.length = n

/-- M is symmetric on indices below n. -/
def isSymmetric (M : List (List ℝ)) (n : Nat) : Prop :=
  ∀ i, i < n → ∀ j, j < n → matEntry M i j = matEntry M j i

/-- Every diagonal entry of M below n equals 1. -/
def diagOnes (M : List (List ℝ)) (n : Nat) : Prop :=
  ∀ i, i < n → matEntry M i i = 1

/-- The valid embeddings intermediate of extract_embeddings_matrix: the
non-empty embedding lists in load order, before dimension filtering. -/
def validEmbeddings (vectors : List DocRecord) : List (List ℚ) :=
  (vectors.map (fun d => d.embedding.getD [])).filter (fun e => 0 < e.length)

/-- A concrete well-formed document record for scenarios. -/
def mkDoc (i : Nat) (e : List ℚ) : DocRecord :=
  { document_id := "doc" ++ toString i
    title := "T" ++ toString i
    author := "A" ++ toString i
    summary := "S" ++ toString i
    embedding := some e }

/-- Scenario input of claim C6: eight documents with 5-dimensional
embeddings and two with 3-dimensional embeddings, interleaved. -/
def mixedDocs : List DocRecord :=
  [mkDoc 0 [0, 0, 0, 0, 0], mkDoc 1 [1, 0, 0, 0, 0], mkDoc 2 [9, 9, 9],
   mkDoc 3 [2, 0, 0, 0, 0], mkDoc 4 [3, 0, 0, 0, 0], mkDoc 5 [4, 0, 0, 0, 0],
   mkDoc 6 [5, 0, 0, 0, 0], mkDoc 7 [8, 8, 8], mkDoc 8 [6, 0, 0, 0, 0],
   mkDoc 9 [7, 0, 0, 0, 0]]

/-- The eight 5-dimensional rows of mixedDocs, in load order. -/
def fiveDimRows : List (List ℚ) :=
  [[0, 0, 0, 0, 0], [1, 0, 0, 0, 0], [2, 0, 0, 0, 0], [3, 0, 0, 0, 0],
   [4, 0, 0, 0, 0], [5, 0, 0, 0, 0], [6, 0, 0, 0, 0], [7, 0, 0, 0, 0]]

/-- A corpus with one invalid document (no embedding) followed by one
valid document: the smallest input on which the matrix rows and the
loaded document list disagree positionally. -/
def cexDocs : List DocRecord :=
  [{ document_id := "a", title := "T0", author := "A0", summary := "S0",
     embedding := none },
   { document_id := "b", title := "T1", author := "A1", summary := "S1",
     embedding := some [1] }]

/-- A corpus in which every document is valid with a uniform embedding
dimension. -/
def uniformDocs : List DocRecord :=
  [{ document_id := "u", title := "TU", author := "AU", summary := "SU",
     embedding := some [1] },
   { document_id := "v", title := "TV", author := "AV", summary := "SV",
     embedding := some [2] }]

mutual
/-- A Python runtime value as seen by the serializer: primitives, tagged
numpy scalars, numpy arrays (numeric matrices), networkx graphs, dicts,
lists, and other values the serializer does not inspect. -/
inductive PyVal : Type where
  | str : String → PyVal
  | num : ℚ → PyVal
  | boolean : Bool → PyVal
  | pynone : PyVal
  | npNum : ℚ → PyVal
  | npArray : List (List ℚ) → PyVal
  | graph : SGraph ℚ → PyVal
  | dict : PyDict → PyVal
  | list : PyList → PyVal
  | extVal : String → PyVal

/-- An insertion-ordered Python dict with string keys. -/
inductive PyDict : Type where
  | nil : PyDict
  | cons : String → PyVal → PyDict → PyDict

/-- A Python list of values. -/
inductive PyList : Type where
  | nil : PyList
  | cons : PyVal → PyList → PyList
end

/-- Converts a Lean list of values into the PyList spine. -/
def listToPyList : List PyVal → PyList
  | [] => .nil
  | v :: vs => .cons v (listToPyList vs)

/-- ndarray.tolist on a numeric matrix: nested lists of native numbers. -/
def ndarrayTolist (a : List (List ℚ)) : PyVal :=
  .list (listToPyList (a.map (fun row => PyVal.list (listToPyList
    (row.map PyVal.num)))))

/-- nx.node_link_data with edges exported under the links key: the
node-link representation of a graph. -/
def node_link_data (g : SGraph ℚ) : PyVal :=
  .dict (.cons "directed" (.boolean false)
    (.cons "multigraph" (.boolean false)
      (.cons "graph" (.dict .nil)
        (.cons "nodes" (.list (listToPyList (g.nodes.map (fun nd =>
            PyVal.dict (.cons "id" (.str nd) .nil)))))
          (.cons "links" (.list (listToPyList (g.edges.map (fun e =>
              PyVal.dict (.cons "weight" (.num e.2.2)
                (.cons "source" (.str e.1)
                  (.cons "target" (.str e.2.1) .nil)))))))
            .nil)))))

mutual
/-- Embedding of PostProcessor._make_json_serializable: dicts and lists
recurse, numpy arrays become nested native lists, numpy scalars become
native numbers, and everything else (graphs included) passes through
unchanged. -/
def make_json_serializable : PyVal → PyVal
  | .dict d => .dict (makeSerDict d)
  | .list l => .list (makeSerList l)
  | .npArray a => ndarrayTolist a
  | .npNum q => .num q
  | v => v

/-- Value-wise recursion of make_json_serializable over a dict. -/
def makeSerDict : PyDict → PyDict
  | .nil => .nil
  | .cons k v rest => .cons k (make_json_serializable v) (makeSerDict rest)

/-- Element-wise recursion of make_json_serializable over a list. -/
def makeSerList : PyList → PyList
  | .nil => .nil
  | .cons v rest => .cons (make_json_serializable v) (makeSerList rest)
end

/-- The per-value dispatch of PostProcessor.save_analysis_results on each
top-level dict entry: numpy arrays become nested lists, numpy scalars
native numbers, graphs node-link dicts, dicts recurse through
_make_json_serializable, and anything else passes through unchanged. -/
def serializeValue : PyVal → PyVal
  | .npArray a => ndarrayTolist a
  | .npNum q => .num q
  | .graph g => node_link_data g
  | .dict d => .dict (makeSerDict d)
  | v => v

/-- Embedding of the conversion loop of PostProcessor.save_analysis_results
(the subsequent json.dump file write is I/O outside this model). -/
def save_analysis_results : PyDict → PyDict
  | .nil => .nil
  | .cons k v rest => .cons k (serializeValue v) (save_analysis_results rest)

mutual
/-- No tagged numpy value (scalar or array) remains anywhere inside. -/
def noNpV : PyVal → Bool
  | .dict d => noNpD d
  | .list l => noNpL l
  | .npArray _ => false
  | .npNum _ => false
  | _ => true

/-- noNpV over every value of a dict. -/
def noNpD : PyDict → Bool
  | .nil => true
  | .cons _ v rest => noNpV v && noNpD rest

/-- noNpV over every element of a list. -/
def noNpL : PyList → Bool
  | .nil => true
  | .cons v rest => noNpV v && noNpL rest
end

mutual
/-- No unconverted graph object remains anywhere inside. -/
def graphFreeV : PyVal → Bool
  | .dict d => graphFreeD d
  | .list l => graphFreeL l
  | .graph _ => false
  | _ => true

/-- graphFreeV over every value of a dict. -/
def graphFreeD : PyDict → Bool
  | .nil => true
  | .cons _ v rest => graphFreeV v && graphFreeD rest

/-- graphFreeV over every element of a list. -/
def graphFreeL : PyList → Bool
  | .nil => true
  | .cons v rest => graphFreeV v && graphFreeL rest
end

/-- Shape of a top-level value the serializer fully converts: a numpy
array or scalar, a graph (converted at top level only), a mapping with no
graph nested inside, or any other value already free of numpy values and
graphs. -/
def topOk : PyVal → Bool
  | .npArray _ => true
  | .npNum _ => true
  | .graph _ => true
  | .dict d => graphFreeD d
  | v => noNpV v && graphFreeV v

/-- topOk over every value of the top-level results dict. -/
def allTopOk : PyDict → Bool
  | .nil => true
  | .cons _ v rest => topOk v && allTopOk rest

/-- Counterexample input of claim C5: a results dict whose single value
is a mapping holding a graph one level down. -/
def nestedGraphInput : PyDict :=
  .cons "results"
    (.dict (.cons "inner_graph" (.graph (SGraph.mk ["a"] [])) .nil))
    .nil

/-- A results dict shaped like the one run_full_analysis assembles: a
numpy matrix, a top-level graph, a scalar, a plain mapping and a plain
list. -/
def analysisLikeDict : PyDict :=
  .cons "n_documents" (.num 2)
    (.cons "cluster_labels" (.npArray [[0], [1]])
      (.cons "similarity_matrix" (.npArray [[1, 0], [0, 1]])
        (.cons "network_graph" (.graph (SGraph.mk ["a", "b"]
            [("a", "b", 1)]))
          (.cons "cluster_summaries"
            (.dict (.cons "0" (.str "theme") .nil))
            (.cons "document_metadata"
              (.list (listToPyList [PyVal.str "a", PyVal.str "b"]))
              .nil)))))

/-- The index pairs (i, j) with i < j < n, in the traversal order of the
nested network-builder loops. -/
def upperPairs (n : Nat) : List (Nat × Nat) :=
  (List.range n).flatMap (fun i =>
    ((List.range n).filter (fun j => i < j)).map (fun j => (i, j)))

theorem extract_eq_map_validDocs (vectors : List DocRecord) :
    extract_embeddings_matrix vectors
      = (validDocs vectors).map (fun d => d.embedding.getD []) := by
  unfold extract_embeddings_matrix validDocs
  simp only [List.filter_map, List.map_map, Function.comp_def, List.map_eq_nil_iff]
  split
  · simp_all
  · split
    · rfl
    · rfl

theorem mem_firstOccsFrom {α : Type} [DecidableEq α] :
    ∀ (l seen : List α) (a : α),
      a ∈ firstOccsFrom l seen ↔ a ∈ l ∧ a ∉ seen
  | [], seen, a => by simp [firstOccsFrom]
  | b :: l, seen, a => by
    rw [firstOccsFrom]
    by_cases hb : b ∈ seen
    · rw [if_pos hb, mem_firstOccsFrom l seen a]
      constructor
      · rintro ⟨hal, has⟩
        exact ⟨List.mem_cons_of_mem b hal, has⟩
      · rintro ⟨hal, has⟩
        rcases List.mem_cons.mp hal with hab | hal
        · exact absurd (hab ▸ hb) has
        · exact ⟨hal, has⟩
    · rw [if_neg hb]
      by_cases hab : a = b
      · subst hab
        simp [hb]
      · simp only [List.mem_cons, hab, false_or]
        rw [mem_firstOccsFrom l (b :: seen) a]
        simp [hab]

theorem mem_firstOccs {α : Type} [DecidableEq α] (l : List α) (a : α) :
    a ∈ firstOccs l ↔ a ∈ l := by
  rw [firstOccs, mem_firstOccsFrom]
  simp

theorem firstOccsFrom_of_nodup {α : Type} [DecidableEq α] :
    ∀ (l seen : List α), l.Nodup → (∀ x ∈ l, x ∉ seen) →
      firstOccsFrom l seen = l
  | [], _, _, _ => rfl
  | b :: l, seen, h, hdisj => by
    rw [firstOccsFrom]
    rcases List.nodup_cons.mp h with ⟨hb, hl⟩
    rw [if_neg (hdisj b (List.mem_cons_self b l))]
    rw [firstOccsFrom_of_nodup l (b :: seen) hl]
    intro x hx
    intro hmem
    rcases List.mem_cons.mp hmem with hxb | hxs
    · exact hb (hxb ▸ hx)
    · exact hdisj x (List.mem_cons_of_mem b hx) hxs

theorem firstOccs_of_nodup {α : Type} [DecidableEq α] (l : List α)
    (h : l.Nodup) : firstOccs l = l := by
  rw [firstOccs, firstOccsFrom_of_nodup l [] h]
  intro x _
  exact List.not_mem_nil x

/-- The result of the most_common fold is the first element, among the
seed and the folded list, achieving the maximal multiplicity in l: its
count dominates the seed and every folded element, and it either is the
seed or occurs in the folded list preceded only by elements of strictly
smaller count. -/
theorem foldl_firstMax (l : List Nat) :
    ∀ (fo : List Nat) (init : Nat),
      ∃ r, fo.foldl (fun b d => if l.count b < l.count d then d else b) init = r ∧
        l.count init ≤ l.count r ∧ (∀ d ∈ fo, l.count d ≤ l.count r) ∧
        (r = init ∨ ∃ pre post, fo = pre ++ r :: post ∧ l.count init < l.count r ∧
          ∀ p ∈ pre, l.count p < l.count r)
  | [], init => ⟨init, rfl, le_refl _, by simp, Or.inl rfl⟩
  | a :: fo, init => by
    simp only [List.foldl_cons]
    by_cases hlt : l.count init < l.count a
    · rw [if_pos hlt]
      obtain ⟨r, hr, h1, h2, h3⟩ := foldl_firstMax l fo a
      refine ⟨r, hr, le_trans (le_of_lt hlt) h1, ?_, ?_⟩
      · intro d hd
        rcases List.mem_cons.mp hd with hda | hdfo
        · exact hda ▸ h1
        · exact h2 d hdfo
      · rcases h3 with heq | ⟨pre, post, hfo, hcnt, hpre⟩
        · right
          refine ⟨[], fo, ?_, ?_, by simp⟩
          · rw [heq]
            rfl
          · rw [heq]
            exact hlt
        · right
          refine ⟨a :: pre, post, ?_, lt_trans hlt hcnt, ?_⟩
          · rw [List.cons_append, hfo]
          · intro p hp
            rcases List.mem_cons.mp hp with hpa | hppre
            · exact hpa ▸ hcnt
            · exact hpre p hppre
    · rw [if_neg hlt]
      obtain ⟨r, hr, h1, h2, h3⟩ := foldl_firstMax l fo init
      refine ⟨r, hr, h1, ?_, ?_⟩
      · intro d hd
        rcases List.mem_cons.mp hd with hda | hdfo
        · exact hda ▸ le_trans (not_lt.mp hlt) h1
        · exact h2 d hdfo
      · rcases h3 with heq | ⟨pre, post, hfo, hcnt, hpre⟩
        · exact Or.inl heq
        · right
          refine ⟨a :: pre, post, ?_, hcnt, ?_⟩
          · rw [List.cons_append, hfo]
          · intro p hp
            rcases List.mem_cons.mp hp with hpa | hppre
            · exact hpa ▸ lt_of_le_of_lt (not_lt.mp hlt) hcnt
            · exact hpre p hppre

/-- Full characterisation of mostCommon: it is an element of l, its
multiplicity is maximal, and in first-occurrence order it precedes every
other element of maximal multiplicity. -/
theorem mostCommon_spec (l : List Nat) (hl : l ≠ []) :
    mostCommon l ∈ l ∧ (∀ d ∈ l, l.count d ≤ l.count (mostCommon l)) ∧
      ∃ pre post, firstOccs l = pre ++ mostCommon l :: post ∧
        ∀ p ∈ pre, l.count p < l.count (mostCommon l) := by
  obtain ⟨h, t, hfo⟩ : ∃ h t, firstOccs l = h :: t := by
    cases l with
    | nil => exact absurd rfl hl
    | cons a l =>
      refine ⟨a, firstOccsFrom l [a], ?_⟩
      rw [firstOccs, firstOccsFrom, if_neg (List.not_mem_nil a)]
  obtain ⟨r, hr, h1, h2, h3⟩ := foldl_firstMax l t h
  have hmc : mostCommon l = r := by
    unfold mostCommon
    rw [hfo]
    exact hr
  rw [hmc]
  have hrmem : r ∈ firstOccs l := by
    rw [hfo]
    rcases h3 with heq | ⟨pre, post, hsplit, _, _⟩
    · exact heq ▸ List.mem_cons_self h t
    · exact List.mem_cons_of_mem h
        (hsplit ▸ List.mem_append_right pre (List.mem_cons_self r post))
  refine ⟨(mem_firstOccs l r).mp hrmem, ?_, ?_⟩
  · intro d hd
    have hdfo : d ∈ firstOccs l := (mem_firstOccs l d).mpr hd
    rw [hfo] at hdfo
    rcases List.mem_cons.mp hdfo with hdh | hdt
    · exact hdh ▸ h1
    · exact h2 d hdt
  · rcases h3 with heq | ⟨pre, post, hsplit, hcnt, hpre⟩
    · refine ⟨[], t, ?_, by simp⟩
      rw [hfo, heq]
      rfl
    · refine ⟨h :: pre, post, ?_, ?_⟩
      · rw [hfo, List.cons_append, hsplit]
      · intro p hp
        rcases List.mem_cons.mp hp with hph | hppre
        · exact hph ▸ hcnt
        · exact hpre p hppre

theorem dotR_comm : ∀ (x y : List ℝ), dotR x y = dotR y x
  | [], y => by cases y <;> simp [dotR]
  | a :: x, [] => by simp [dotR]
  | a :: x, b :: y => by
    have h := dotR_comm x y
    simp only [dotR, List.zipWith_cons_cons, List.sum_cons] at h ⊢
    rw [h, mul_comm]

theorem dotR_self_eq_sum_squares (x : List ℝ) :
    dotR x x = (x.map (fun t => t * t)).sum := by
  induction x with
  | nil => simp [dotR]
  | cons a x ih => simp only [dotR, List.zipWith_cons_cons, List.sum_cons,
      List.map_cons] at ih ⊢; rw [ih]

theorem dotR_self_nonneg (x : List ℝ) : 0 ≤ dotR x x := by
  rw [dotR_self_eq_sum_squares]
  apply List.sum_nonneg
  intro t ht
  obtain ⟨u, _, hu⟩ := List.mem_map.mp ht
  exact hu ▸ mul_self_nonneg u

theorem dotR_self_pos (x : List ℝ) (h : ∃ t ∈ x, t ≠ 0) : 0 < dotR x x := by
  obtain ⟨t, htx, ht⟩ := h
  rw [dotR_self_eq_sum_squares]
  have hmem : t * t ∈ x.map (fun u => u * u) := List.mem_map.mpr ⟨t, htx, rfl⟩
  have hle : t * t ≤ (x.map (fun u => u * u)).sum := by
    apply List.single_le_sum _ _ hmem
    intro u hu
    obtain ⟨v, _, hv⟩ := List.mem_map.mp hu
    exact hv ▸ mul_self_nonneg v
  exact lt_of_lt_of_le (mul_self_pos.mpr ht) hle

theorem sq_dist_comm (x y : List ℝ) :
    ((List.zipWith (fun a b => a - b) x y).map (fun t => t * t)).sum
      = ((List.zipWith (fun a b => a - b) y x).map (fun t => t * t)).sum := by
  induction x generalizing y with
  | nil => cases y <;> simp
  | cons a x ih =>
    cases y with
    | nil => simp
    | cons b y =>
      simp only [List.zipWith_cons_cons, List.map_cons, List.sum_cons]
      rw [ih y]
      ring_nf

theorem getD_eq_getElem_of_lt {β : Type} (l : List β) (d : β) (i : Nat)
    (hi : i < l.length) : l.getD i d = l[i] := by
  rw [List.getD_eq_getElem?_getD, List.getElem?_eq_getElem hi]
  rfl

theorem matEntry_pairmap (emb : List (List ℝ)) (g : List ℝ → List ℝ → ℝ)
    (i j : Nat) (hi : i < emb.length) (hj : j < emb.length) :
    matEntry (emb.map (fun xi => emb.map (fun xj => g xi xj))) i j
      = g (emb.getD i []) (emb.getD j []) := by
  unfold matEntry
  have hrow : (emb.map (fun xi => emb.map (fun xj => g xi xj))).getD i []
      = emb.map (fun xj => g (emb.getD i []) xj) := by
    rw [getD_eq_getElem_of_lt _ _ _ (by simpa using hi), List.getElem_map,
        getD_eq_getElem_of_lt _ _ _ hi]
  rw [hrow, getD_eq_getElem_of_lt _ _ _ (by simpa using hj), List.getElem_map,
      getD_eq_getElem_of_lt _ _ _ hj]

theorem matEntry_maprows (m : List (List ℝ)) (f : ℝ → ℝ) (i j : Nat)
    (hi : i < m.length) (hj : j < (m.getD i []).length) :
    matEntry (m.map (fun row => row.map f)) i j = f (matEntry m i j) := by
  unfold matEntry
  have hrow : (m.map (fun row => row.map f)).getD i [] = (m.getD i []).map f := by
    rw [getD_eq_getElem_of_lt _ _ _ (by simpa using hi), List.getElem_map,
        getD_eq_getElem_of_lt _ _ _ hi]
  rw [hrow, getD_eq_getElem_of_lt _ _ _ (by simpa using hj), List.getElem_map,
      getD_eq_getElem_of_lt _ _ _ hj]

theorem matEntry_rangemap (n : Nat) (g : Nat → Nat → ℝ) (i j : Nat)
    (hi : i < n) (hj : j < n) :
    matEntry ((List.range n).map (fun a =>
      (List.range n).map (fun b => g a b))) i j = g i j := by
  unfold matEntry
  have hrow : ((List.range n).map (fun a =>
      (List.range n).map (fun b => g a b))).getD i []
      = (List.range n).map (fun b => g i b) := by
    rw [getD_eq_getElem_of_lt _ _ _ (by simpa using hi), List.getElem_map,
        List.getElem_range]
  rw [hrow, getD_eq_getElem_of_lt _ _ _ (by simpa using hj), List.getElem_map,
      List.getElem_range]

theorem getD_map_of_lt {β γ : Type} (l : List β) (F : β → γ) (d : γ) (i : Nat)
    (hi : i < l.length) : (l.map F).getD i d = F l[i] := by
  rw [getD_eq_getElem_of_lt _ _ _ (by simpa using hi), List.getElem_map]

theorem getD_mem_of_lt {β : Type} (l : List β) (d : β) (i : Nat)
    (hi : i < l.length) : l.getD i d ∈ l := by
  rw [getD_eq_getElem_of_lt _ _ _ hi]
  exact List.getElem_mem hi

theorem pairmap_isSquare (emb : List (List ℝ)) (g : List ℝ → List ℝ → ℝ) :
    isSquare (emb.map (fun xi => emb.map (fun xj => g xi xj))) emb.length := by
  constructor
  · simp
  · intro row hrow
    obtain ⟨xi, _, hxi⟩ := List.mem_map.mp hrow
    rw [← hxi]
    simp

theorem sq_dist_self (x : List ℝ) :
    ((List.zipWith (fun a b => a - b) x x).map (fun t => t * t)).sum = 0 := by
  induction x with
  | nil => simp
  | cons a x ih =>
    simp only [List.zipWith_cons_cons, List.map_cons, List.sum_cons, ih]
    ring_nf

theorem cosine_props (emb : List (List ℝ))
    (hnz : ∀ row ∈ emb, ∃ t ∈ row, t ≠ 0) :
    isSquare (cosine_similarity emb) emb.length ∧
      isSymmetric (cosine_similarity emb) emb.length ∧
      diagOnes (cosine_similarity emb) emb.length := by
  refine ⟨pairmap_isSquare emb _, ?_, ?_⟩
  · intro i hi j hj
    unfold cosine_similarity
    rw [matEntry_pairmap emb _ i j hi hj, matEntry_pairmap emb _ j i hj hi]
    rw [dotR_comm, mul_comm]
  · intro i hi
    unfold cosine_similarity
    rw [matEntry_pairmap emb _ i i hi hi]
    have hpos : 0 < dotR (emb.getD i []) (emb.getD i []) :=
      dotR_self_pos _ (hnz _ (getD_mem_of_lt emb [] i hi))
    rw [Real.mul_self_sqrt (le_of_lt hpos)]
    exact div_self (ne_of_gt hpos)

theorem euclidean_dist_props (emb : List (List ℝ)) :
    isSquare (euclidean_distances emb) emb.length ∧
      isSymmetric (euclidean_distances emb) emb.length ∧
      (∀ i, i < emb.length → matEntry (euclidean_distances emb) i i = 0) := by
  refine ⟨pairmap_isSquare emb _, ?_, ?_⟩
  · intro i hi j hj
    unfold euclidean_distances
    rw [matEntry_pairmap emb _ i j hi hj, matEntry_pairmap emb _ j i hj hi]
    rw [sq_dist_comm]
  · intro i hi
    unfold euclidean_distances
    rw [matEntry_pairmap emb _ i i hi hi, sq_dist_self, Real.sqrt_zero]

theorem maprows_props (m : List (List ℝ)) (n : Nat) (f : ℝ → ℝ)
    (hsq : isSquare m n) :
    isSquare (m.map (fun row => row.map f)) n ∧
      (∀ i j, i < n → j < n →
        matEntry (m.map (fun row => row.map f)) i j = f (matEntry m i j)) := by
  obtain ⟨hlen, hrows⟩ := hsq
  constructor
  · constructor
    · simpa using hlen
    · intro row hrow
      obtain ⟨r, hr, hrr⟩ := List.mem_map.mp hrow
      rw [← hrr, List.length_map]
      exact hrows r hr
  · intro i j hi hj
    apply matEntry_maprows
    · rw [hlen]
      exact hi
    · rw [hrows _ (getD_mem_of_lt m [] i (hlen ▸ hi))]
      exact hj

theorem pearsonr_comm (x y : List ℝ) : pearsonr x y = pearsonr y x := by
  unfold pearsonr
  simp only []
  rw [dotR_comm, mul_comm]

theorem correlation_props (emb : List (List ℝ)) :
    isSquare ((List.range emb.length).map (fun i =>
        (List.range emb.length).map (fun j =>
          if i = j then 1
          else pearsonr (emb.getD i []) (emb.getD j []))) : List (List ℝ))
        emb.length ∧
      isSymmetric ((List.range emb.length).map (fun i =>
        (List.range emb.length).map (fun j =>
          if i = j then 1
          else pearsonr (emb.getD i []) (emb.getD j [])))) emb.length ∧
      diagOnes ((List.range emb.length).map (fun i =>
        (List.range emb.length).map (fun j =>
          if i = j then 1
          else pearsonr (emb.getD i []) (emb.getD j [])))) emb.length := by
  refine ⟨⟨by simp, ?_⟩, ?_, ?_⟩
  · intro row hrow
    obtain ⟨a, _, ha⟩ := List.mem_map.mp hrow
    rw [← ha]
    simp
  · intro i hi j hj
    rw [matEntry_rangemap _ _ i j hi hj, matEntry_rangemap _ _ j i hj hi]
    by_cases hij : i = j
    · simp [hij]
    · rw [if_neg hij, if_neg (Ne.symm hij), pearsonr_comm]
  · intro i hi
    rw [matEntry_rangemap _ _ i i hi hi]
    simp

theorem listToPyList_noNp (l : List PyVal) (h : ∀ v ∈ l, noNpV v = true) :
    noNpL (listToPyList l) = true := by
  induction l with
  | nil => rfl
  | cons v vs ih =>
    simp only [listToPyList, noNpL, Bool.and_eq_true]
    exact ⟨h v (List.mem_cons_self v vs),
      ih (fun u hu => h u (List.mem_cons_of_mem v hu))⟩

theorem listToPyList_graphFree (l : List PyVal)
    (h : ∀ v ∈ l, graphFreeV v = true) :
    graphFreeL (listToPyList l) = true := by
  induction l with
  | nil => rfl
  | cons v vs ih =>
    simp only [listToPyList, graphFreeL, Bool.and_eq_true]
    exact ⟨h v (List.mem_cons_self v vs),
      ih (fun u hu => h u (List.mem_cons_of_mem v hu))⟩

theorem ndarrayTolist_noNp (a : List (List ℚ)) :
    noNpV (ndarrayTolist a) = true := by
  show noNpL (listToPyList (a.map (fun row => PyVal.list (listToPyList
    (row.map PyVal.num))))) = true
  apply listToPyList_noNp
  intro v hv
  obtain ⟨row, _, hrow⟩ := List.mem_map.mp hv
  rw [← hrow]
  show noNpL (listToPyList (row.map PyVal.num)) = true
  apply listToPyList_noNp
  intro u hu
  obtain ⟨q, _, hq⟩ := List.mem_map.mp hu
  rw [← hq]
  rfl

theorem ndarrayTolist_graphFree (a : List (List ℚ)) :
    graphFreeV (ndarrayTolist a) = true := by
  show graphFreeL (listToPyList (a.map (fun row => PyVal.list (listToPyList
    (row.map PyVal.num))))) = true
  apply listToPyList_graphFree
  intro v hv
  obtain ⟨row, _, hrow⟩ := List.mem_map.mp hv
  rw [← hrow]
  show graphFreeL (listToPyList (row.map PyVal.num)) = true
  apply listToPyList_graphFree
  intro u hu
  obtain ⟨q, _, hq⟩ := List.mem_map.mp hu
  rw [← hq]
  rfl

theorem node_link_data_noNp (g : SGraph ℚ) :
    noNpV (node_link_data g) = true := by
  have hn : noNpL (listToPyList (g.nodes.map (fun nd =>
      PyVal.dict (.cons "id" (.str nd) .nil)))) = true := by
    apply listToPyList_noNp
    intro v hv
    obtain ⟨nd, _, h⟩ := List.mem_map.mp hv
    rw [← h]
    rfl
  have hl : noNpL (listToPyList (g.edges.map (fun e =>
      PyVal.dict (.cons "weight" (.num e.2.2)
        (.cons "source" (.str e.1) (.cons "target" (.str e.2.1) .nil)))))) = true := by
    apply listToPyList_noNp
    intro v hv
    obtain ⟨e, _, h⟩ := List.mem_map.mp hv
    rw [← h]
    rfl
  show noNpD _ = true
  simp [noNpD, noNpV, hn, hl]

theorem node_link_data_graphFree (g : SGraph ℚ) :
    graphFreeV (node_link_data g) = true := by
  have hn : graphFreeL (listToPyList (g.nodes.map (fun nd =>
      PyVal.dict (.cons "id" (.str nd) .nil)))) = true := by
    apply listToPyList_graphFree
    intro v hv
    obtain ⟨nd, _, h⟩ := List.mem_map.mp hv
    rw [← h]
    rfl
  have hl : graphFreeL (listToPyList (g.edges.map (fun e =>
      PyVal.dict (.cons "weight" (.num e.2.2)
        (.cons "source" (.str e.1) (.cons "target" (.str e.2.1) .nil)))))) = true := by
    apply listToPyList_graphFree
    intro v hv
    obtain ⟨e, _, h⟩ := List.mem_map.mp hv
    rw [← h]
    rfl
  show graphFreeD _ = true
  simp [graphFreeD, graphFreeV, hn, hl]

mutual
theorem noNp_makeSer : ∀ v : PyVal, noNpV (make_json_serializable v) = true
  | .str _ => rfl
  | .num _ => rfl
  | .boolean _ => rfl
  | .pynone => rfl
  | .npNum _ => rfl
  | .npArray a => ndarrayTolist_noNp a
  | .graph _ => rfl
  | .dict d => noNpD_makeSer d
  | .list l => noNpL_makeSer l
  | .extVal _ => rfl

theorem noNpD_makeSer : ∀ d : PyDict, noNpD (makeSerDict d) = true
  | .nil => rfl
  | .cons k v rest => by
    show (noNpV (make_json_serializable v) && noNpD (makeSerDict rest)) = true
    rw [noNp_makeSer v, noNpD_makeSer rest]
    rfl

theorem noNpL_makeSer : ∀ l : PyList, noNpL (makeSerList l) = true
  | .nil => rfl
  | .cons v rest => by
    show (noNpV (make_json_serializable v) && noNpL (makeSerList rest)) = true
    rw [noNp_makeSer v, noNpL_makeSer rest]
    rfl
end

mutual
theorem graphFree_makeSer :
    ∀ v : PyVal, graphFreeV v = true → graphFreeV (make_json_serializable v) = true
  | .str _, _ => rfl
  | .num _, _ => rfl
  | .boolean _, _ => rfl
  | .pynone, _ => rfl
  | .npNum _, _ => rfl
  | .npArray a, _ => ndarrayTolist_graphFree a
  | .graph _, h => Bool.noConfusion h
  | .dict d, h => graphFreeD_makeSer d h
  | .list l, h => graphFreeL_makeSer l h
  | .extVal _, _ => rfl

theorem graphFreeD_makeSer :
    ∀ d : PyDict, graphFreeD d = true → graphFreeD (makeSerDict d) = true
  | .nil, _ => rfl
  | .cons k v rest, h => by
    have hv : graphFreeV v = true ∧ graphFreeD rest = true := by
      simpa [graphFreeD, Bool.and_eq_true] using h
    show (graphFreeV (make_json_serializable v) && graphFreeD (makeSerDict rest)) = true
    rw [graphFree_makeSer v hv.1, graphFreeD_makeSer rest hv.2]
    rfl

theorem graphFreeL_makeSer :
    ∀ l : PyList, graphFreeL l = true → graphFreeL (makeSerList l) = true
  | .nil, _ => rfl
  | .cons v rest, h => by
    have hv : graphFreeV v = true ∧ graphFreeL rest = true := by
      simpa [graphFreeL, Bool.and_eq_true] using h
    show (graphFreeV (make_json_serializable v) && graphFreeL (makeSerList rest)) = true
    rw [graphFree_makeSer v hv.1, graphFreeL_makeSer rest hv.2]
    rfl
end

theorem serializeValue_clean (v : PyVal) (h : topOk v = true) :
    noNpV (serializeValue v) = true ∧ graphFreeV (serializeValue v) = true := by
  cases v with
  | npArray a => exact ⟨ndarrayTolist_noNp a, ndarrayTolist_graphFree a⟩
  | npNum q => exact ⟨rfl, rfl⟩
  | graph g => exact ⟨node_link_data_noNp g, node_link_data_graphFree g⟩
  | dict d =>
    refine ⟨noNpD_makeSer d, ?_⟩
    have hd : graphFreeD d = true := h
    exact graphFreeD_makeSer d hd
  | str s => exact ⟨rfl, rfl⟩
  | num q => exact ⟨rfl, rfl⟩
  | boolean b => exact ⟨rfl, rfl⟩
  | pynone => exact ⟨rfl, rfl⟩
  | list l =>
    have hb : (noNpV (.list l) && graphFreeV (.list l)) = true := h
    simp only [Bool.and_eq_true] at hb
    exact hb
  | extVal s => exact ⟨rfl, rfl⟩

theorem save_analysis_results_clean :
    ∀ results : PyDict, allTopOk results = true →
      noNpD (save_analysis_results results) = true ∧
      graphFreeD (save_analysis_results results) = true
  | .nil, _ => ⟨rfl, rfl⟩
  | .cons k v rest, h => by
    have hb : (topOk v && allTopOk rest) = true := h
    simp only [Bool.and_eq_true] at hb
    obtain ⟨hv, hrest⟩ := hb
    obtain ⟨ih1, ih2⟩ := save_analysis_results_clean rest hrest
    obtain ⟨hc1, hc2⟩ := serializeValue_clean v hv
    constructor
    · show (noNpV (serializeValue v) && noNpD (save_analysis_results rest)) = true
      rw [hc1, ih1]
      rfl
    · show (graphFreeV (serializeValue v) &&
        graphFreeD (save_analysis_results rest)) = true
      rw [hc2, ih2]
      rfl

/-- C5 counterexample: a graph nested one mapping deep is passed through
unchanged by save_analysis_results, so the serialized output still holds
an unconverted graph object, contradicting the claim that every graph at
any nesting depth becomes a node-link dict. -/
theorem C5_counterexample :
    save_analysis_results nestedGraphInput = nestedGraphInput ∧
    graphFreeD (save_analysis_results nestedGraphInput) = false := by
  exact ⟨rfl, rfl⟩

/-- C5 (amended): the recursive helper converts every numpy array and
scalar at any depth to native nested values and preserves absence of
graphs, but leaves graph objects themselves untouched; consequently the
top-level serializer yields a fully native, graph-converted tree exactly
when every top-level value is a numpy array, a numpy scalar, a graph, a
mapping free of nested graphs, or any other value already free of numpy
values and graphs.  Graphs nested inside mappings or sequences, and
numpy values inside non-mapping top-level values, are passed through
unchanged. -/
theorem C5_serializer_amended :
    (∀ v : PyVal, noNpV (make_json_serializable v) = true) ∧
    (∀ v : PyVal, graphFreeV v = true →
      graphFreeV (make_json_serializable v) = true) ∧
    (∀ g : SGraph ℚ, make_json_serializable (.graph g) = .graph g) ∧
    (∀ results : PyDict, allTopOk results = true →
      noNpD (save_analysis_results results) = true ∧
      graphFreeD (save_analysis_results results) = true) := by
  exact ⟨noNp_makeSer, graphFree_makeSer, fun g => rfl,
    save_analysis_results_clean⟩

/-- C5 witness: the amended serializer theorem applied to a concrete
results dict of the shape run_full_analysis assembles, and the
graph-preservation part applied to a concrete primitive. -/
theorem C5_witness :
    (noNpD (save_analysis_results analysisLikeDict) = true ∧
      graphFreeD (save_analysis_results analysisLikeDict) = true) ∧
    graphFreeV (make_json_serializable (.str "title")) = true :=
  ⟨C5_serializer_amended.2.2.2 analysisLikeDict rfl,
   C5_serializer_amended.2.1 (.str "title") rfl⟩

theorem dedup_length_le_one {β : Type} [DecidableEq β] (l : List β) (m : β)
    (h : ∀ x ∈ l, x = m) : l.dedup.length ≤ 1 := by
  rcases hd : l.dedup with _ | ⟨a, t⟩
  · simp
  · rcases t with _ | ⟨b, t2⟩
    · simp
    · exfalso
      have hnd := l.nodup_dedup
      rw [hd] at hnd
      have ha : a ∈ l.dedup := by
        rw [hd]
        exact List.mem_cons_self _ _
      have hb : b ∈ l.dedup := by
        rw [hd]
        exact List.mem_cons_of_mem _ (List.mem_cons_self _ _)
      have ham : a = m := h a (List.dedup_subset l ha)
      have hbm : b = m := h b (List.dedup_subset l hb)
      rcases List.nodup_cons.mp hnd with ⟨hna, _⟩
      apply hna
      rw [ham, ← hbm]
      exact List.mem_cons_self _ _

theorem validDocs_of_uniform (vectors : List DocRecord) (m : Nat) (hm : 0 < m)
    (hall : ∀ d ∈ vectors, (d.embedding.getD []).length = m) :
    validDocs vectors = vectors := by
  unfold validDocs
  simp only []
  have hfilter : vectors.filter (fun d => 0 < (d.embedding.getD []).length)
      = vectors := by
    apply List.filter_eq_self.mpr
    intro d hd
    simp [hall d hd, hm]
  rw [hfilter]
  have hdims : ∀ x ∈ vectors.map (fun d => (d.embedding.getD []).length), x = m := by
    intro x hx
    obtain ⟨d, hd, hdx⟩ := List.mem_map.mp hx
    rw [← hdx]
    exact hall d hd
  have hle := dedup_length_le_one _ m hdims
  by_cases hv : vectors = []
  · rw [if_pos hv, hv]
  · rw [if_neg hv, if_neg (by omega)]

theorem extract_of_uniform (vectors : List DocRecord) (m : Nat) (hm : 0 < m)
    (hall : ∀ d ∈ vectors, (d.embedding.getD []).length = m) :
    extract_embeddings_matrix vectors
      = vectors.map (fun d => d.embedding.getD []) := by
  rw [extract_eq_map_validDocs, validDocs_of_uniform vectors m hm hall]

/-- C1 (amended): the positional-alignment invariant holds exactly on
corpora in which every loaded document carries a valid embedding of one
uniform dimension; then the valid documents are the loaded documents, the
matrix has one row per loaded document, per-cluster narration picks the
documents the claim describes, and document_metadata is aligned with the
matrix.  (On corpora with an invalid document the narration and metadata
index the full loaded list and misalign; see the counterexample.) -/
theorem C1_alignment_amended (vectors : List DocRecord) (m : Nat)
    (hm : 0 < m)
    (hall : ∀ d ∈ vectors, (d.embedding.getD []).length = m) :
    validDocs vectors = vectors ∧
    extract_embeddings_matrix vectors
        = vectors.map (fun d => d.embedding.getD []) ∧
    (document_metadata vectors).length = (extract_embeddings_matrix vectors).length ∧
    (∀ labels cluster_id, clusterTitles vectors labels cluster_id
        = clusterTitlesSpec vectors labels cluster_id) ∧
    document_metadata vectors
        = (validDocs vectors).map (fun v => (v.document_id, v.title, v.author)) := by
  have hv := validDocs_of_uniform vectors m hm hall
  have he := extract_of_uniform vectors m hm hall
  refine ⟨hv, he, ?_, ?_, ?_⟩
  · rw [he]
    simp [document_metadata]
  · intro labels cluster_id
    unfold clusterTitles clusterTitlesSpec
    rw [hv]
  · rw [hv]
    rfl

/-- C1 counterexample: with one embeddingless document loaded before one
valid document, the label list has one entry per matrix row, yet the
narration for cluster 0 collects the title of the INVALID document
(narration indexes the loaded list), and document_metadata has one entry
per loaded document, so it is not positionally aligned with the
embedding matrix. -/
theorem C1_counterexample :
    ([0] : List Int).length = (extract_embeddings_matrix cexDocs).length ∧
    clusterTitles cexDocs [0] 0 = ["T0"] ∧
    clusterTitlesSpec cexDocs [0] 0 = ["T1"] ∧
    clusterTitles cexDocs [0] 0 ≠ clusterTitlesSpec cexDocs [0] 0 ∧
    (document_metadata cexDocs).length ≠ (extract_embeddings_matrix cexDocs).length := by
  decide

/-- C1 witness: the amended alignment theorem instantiated on a concrete
all-valid corpus. -/
theorem C1_witness :
    validDocs uniformDocs = uniformDocs ∧
    extract_embeddings_matrix uniformDocs
        = uniformDocs.map (fun d => d.embedding.getD []) ∧
    (document_metadata uniformDocs).length
        = (extract_embeddings_matrix uniformDocs).length ∧
    (∀ labels cluster_id, clusterTitles uniformDocs labels cluster_id
        = clusterTitlesSpec uniformDocs labels cluster_id) ∧
    document_metadata uniformDocs
        = (validDocs uniformDocs).map (fun v => (v.document_id, v.title, v.author)) :=
  C1_alignment_amended uniformDocs 1 (by norm_num) (by decide)

/-- C2 (amended): the network builder adds one node per document id
unconditionally and nothing else (so isolated nodes are retained and the
node set equals the id set for every similarity matrix and threshold);
in a full analysis run the id list covers every LOADED document, so with
distinct ids the node count equals the number of loaded documents, and it
equals the number of valid documents exactly when every loaded document
carries a valid uniform-dimension embedding. -/
theorem C2_graph_nodes_amended {α : Type} [LinearOrder α] [Inhabited α]
    (sim : List (List α)) (ids : List String) (threshold : α)
    (vectors : List DocRecord) (m : Nat) (hm : 0 < m)
    (hall : ∀ d ∈ vectors, (d.embedding.getD []).length = m)
    (hnodup : (analysisDocIds vectors).Nodup) :
    (∀ docId ∈ ids, docId ∈ (create_network_graph sim ids threshold).nodes) ∧
    (∀ nd ∈ (create_network_graph sim ids threshold).nodes, nd ∈ ids) ∧
    (create_network_graph sim (analysisDocIds vectors) threshold).nodes.length
        = vectors.length ∧
    (create_network_graph sim (analysisDocIds vectors) threshold).nodes.length
        = (extract_embeddings_matrix vectors).length := by
  have hnodes : ∀ l : List String,
      (create_network_graph sim l threshold).nodes = firstOccs l := fun l => rfl
  refine ⟨?_, ?_, ?_, ?_⟩
  · intro docId hid
    rw [hnodes]
    exact (mem_firstOccs _ _).mpr hid
  · intro nd hnd
    rw [hnodes] at hnd
    exact (mem_firstOccs _ _).mp hnd
  · rw [hnodes, firstOccs_of_nodup _ hnodup]
    simp [analysisDocIds]
  · rw [hnodes, firstOccs_of_nodup _ hnodup,
      extract_of_uniform vectors m hm hall]
    simp [analysisDocIds]

/-- C2 counterexample: in a run over a corpus with one invalid and one
valid document, the graph receives one id per LOADED document, so its
node count is 2 while the embedding matrix has 1 row: the node count does
not equal the number of valid documents. -/
theorem C2_counterexample :
    (create_network_graph ([[1]] : List (List ℤ)) (analysisDocIds cexDocs) 0).nodes.length = 2 ∧
    (extract_embeddings_matrix cexDocs).length = 1 ∧
    (create_network_graph ([[1]] : List (List ℤ)) (analysisDocIds cexDocs) 0).nodes.length
      ≠ (extract_embeddings_matrix cexDocs).length := by
  decide

/-- C2 witness: the amended node theorem instantiated on concrete integer
similarities, ids and an all-valid corpus. -/
theorem C2_witness :
    (∀ docId ∈ (["x", "y"] : List String),
      docId ∈ (create_network_graph ([[3, 2], [2, 3]] : List (List ℤ)) ["x", "y"] 1).nodes) ∧
    (∀ nd ∈ (create_network_graph ([[3, 2], [2, 3]] : List (List ℤ)) ["x", "y"] 1).nodes,
      nd ∈ (["x", "y"] : List String)) ∧
    (create_network_graph ([[3, 2], [2, 3]] : List (List ℤ))
        (analysisDocIds uniformDocs) 1).nodes.length = uniformDocs.length ∧
    (create_network_graph ([[3, 2], [2, 3]] : List (List ℤ))
        (analysisDocIds uniformDocs) 1).nodes.length
      = (extract_embeddings_matrix uniformDocs).length :=
  C2_graph_nodes_amended [[3, 2], [2, 3]] ["x", "y"] 1 uniformDocs 1
    (by norm_num) (by decide) (by decide)

/-- C3 counterexample: for a 4-row matrix with requested perplexity 30
the code sets the effective perplexity to max(5, 3 / 2) = 5, which is NOT
strictly less than the number of rows, refuting the claimed bound for
every matrix with at least one row. -/
theorem C3_counterexample :
    effectivePerplexity 4 30 = 5 ∧ ¬ effectivePerplexity 4 30 < 4 := by
  decide

/-- C3 (amended): the clamp triggers whenever the requested perplexity is
at least n - 1 (also at exactly n - 1, which does not itself violate the
strict bound) and then yields max(5, (n - 1) / 2); the effective value is
strictly below n whenever n is at least 6, and whenever the requested
value is below n - 1 it is used unchanged; for matrices with 5 or fewer
rows and a large request the effective value 5 can reach or exceed n.
The 10-row scenario yields effective perplexity 5 and output shape
(10, 2); the empty matrix yields an empty output. -/
theorem C3_perplexity_amended :
    (∀ n requested, 6 ≤ n → effectivePerplexity n requested < n) ∧
    (∀ n requested, requested < n - 1 →
      effectivePerplexity n requested = requested ∧
      effectivePerplexity n requested < n) ∧
    (∀ n requested, n - 1 ≤ requested →
      effectivePerplexity n requested = max 5 ((n - 1) / 2)) ∧
    effectivePerplexity 10 30 = 5 ∧
    (∀ embeddings : List (List ℚ), embeddings.length = 10 →
      (apply_tsne embeddings 2 30).length = 10 ∧
      ∀ row ∈ apply_tsne embeddings 2 30, row.length = 2) ∧
    apply_tsne [] 2 30 = [] := by
  refine ⟨?_, ?_, ?_, by decide, ?_, rfl⟩
  · intro n requested h6
    unfold effectivePerplexity
    simp only []
    split
    · omega
    · omega
  · intro n requested hlt
    unfold effectivePerplexity
    simp only []
    rw [if_neg (by omega)]
    omega
  · intro n requested hge
    unfold effectivePerplexity
    simp only []
    rw [if_pos (by omega)]
  · intro embeddings hlen
    unfold apply_tsne tsneEmbed
    rw [if_neg (by omega)]
    constructor
    · simp [hlen]
    · intro row hrow
      obtain ⟨x, _, hx⟩ := List.mem_map.mp hrow
      rw [← hx]
      simp

/-- C3 witness: the amended theorem applied at a 6-row bound instance and
at a concrete 10-row matrix. -/
theorem C3_witness :
    effectivePerplexity 6 30 < 6 ∧
    ((apply_tsne (List.replicate 10 ([1] : List ℚ)) 2 30).length = 10 ∧
      ∀ row ∈ apply_tsne (List.replicate 10 ([1] : List ℚ)) 2 30,
        row.length = 2) :=
  ⟨C3_perplexity_amended.1 6 30 (by norm_num),
   C3_perplexity_amended.2.2.2.2.1 (List.replicate 10 [1]) (by simp)⟩

/-- C6: whenever the non-empty embeddings exhibit more than one distinct
length, the matrix builder keeps exactly the embeddings whose length is a
most frequent length, where that target length occurs in the data, its
multiplicity dominates every other length, and in first-occurrence order
it precedes every other length of equal multiplicity (the
Counter.most_common tie-break); in the concrete 8-by-5 plus 2-by-3
scenario exactly the eight 5-dimensional rows remain. -/
theorem C6_majority_dimension :
    (∀ vectors : List DocRecord,
      1 < ((validEmbeddings vectors).map List.length).dedup.length →
      ∃ target_dim,
        target_dim ∈ (validEmbeddings vectors).map List.length ∧
        (∀ d ∈ (validEmbeddings vectors).map List.length,
          ((validEmbeddings vectors).map List.length).count d ≤
            ((validEmbeddings vectors).map List.length).count target_dim) ∧
        (∃ pre post,
          firstOccs ((validEmbeddings vectors).map List.length)
              = pre ++ target_dim :: post ∧
          ∀ p ∈ pre, ((validEmbeddings vectors).map List.length).count p <
            ((validEmbeddings vectors).map List.length).count target_dim) ∧
        extract_embeddings_matrix vectors
          = (validEmbeddings vectors).filter (fun e => e.length = target_dim)) ∧
    extract_embeddings_matrix mixedDocs = fiveDimRows := by
  constructor
  · intro vectors hdim
    have hne : (validEmbeddings vectors).map List.length ≠ [] := by
      intro h
      rw [h] at hdim
      simp at hdim
    obtain ⟨hmem, hmax, htie⟩ := mostCommon_spec _ hne
    refine ⟨mostCommon ((validEmbeddings vectors).map List.length),
      hmem, hmax, htie, ?_⟩
    unfold extract_embeddings_matrix validEmbeddings
    simp only []
    rw [if_neg ?hne2, if_pos ?hpos]
    case hne2 =>
      intro h
      apply hne
      unfold validEmbeddings
      rw [h]
      rfl
    case hpos =>
      unfold validEmbeddings at hdim
      exact hdim
  · decide

/-- C6 witness: the general majority-dimension theorem applied to the
concrete mixed corpus, whose eight 5-dimensional and two 3-dimensional
embeddings indeed exhibit two distinct lengths. -/
theorem C6_witness :
    1 < ((validEmbeddings mixedDocs).map List.length).dedup.length ∧
    ∃ target_dim,
      target_dim ∈ (validEmbeddings mixedDocs).map List.length ∧
      (∀ d ∈ (validEmbeddings mixedDocs).map List.length,
        ((validEmbeddings mixedDocs).map List.length).count d ≤
          ((validEmbeddings mixedDocs).map List.length).count target_dim) ∧
      (∃ pre post,
        firstOccs ((validEmbeddings mixedDocs).map List.length)
            = pre ++ target_dim :: post ∧
        ∀ p ∈ pre, ((validEmbeddings mixedDocs).map List.length).count p <
          ((validEmbeddings mixedDocs).map List.length).count target_dim) ∧
      extract_embeddings_matrix mixedDocs
        = (validEmbeddings mixedDocs).filter (fun e => e.length = target_dim) :=
  ⟨by decide, C6_majority_dimension.1 mixedDocs (by decide)⟩

/-- C7: with a non-empty matrix and a positive requested cluster count,
kmeans clustering returns one integer label per matrix row, each in
[0, k); with the cluster count unset it runs kmeans with
k = max(2, floor(sqrt(n_rows))).  (The kmeans collaborator itself is the
external sklearn library, modelled here by its contract.) -/
theorem C7_kmeans_labels :
    ∀ (embeddings : List (List ℚ)) (k : Nat), embeddings ≠ [] → 1 ≤ k →
      (∃ labels, cluster_documents embeddings (some k) "kmeans" = .ok labels ∧
        labels.length = embeddings.length ∧
        ∀ label ∈ labels, 0 ≤ label ∧ label < (k : Int)) ∧
      cluster_documents embeddings none "kmeans"
        = cluster_documents embeddings
            (some (max 2 (Nat.sqrt embeddings.length))) "kmeans" := by
  intro embeddings k hne hk
  constructor
  · refine ⟨kmeansLabels k embeddings.length, ?_, ?_, ?_⟩
    · unfold cluster_documents
      rw [if_neg (by simpa [List.length_eq_zero] using hne), if_pos rfl]
      rfl
    · unfold kmeansLabels
      simp
    · intro label hlabel
      unfold kmeansLabels at hlabel
      obtain ⟨i, _, hi⟩ := List.mem_map.mp hlabel
      constructor
      · rw [← hi]
        exact Int.ofNat_nonneg _
      · rw [← hi]
        exact_mod_cast Nat.mod_lt i (by omega)
  · rfl

/-- C7 witness: the kmeans label contract at a concrete 2-row matrix with
k = 2, and the default-k equation at the same matrix. -/
theorem C7_witness :
    (∃ labels, cluster_documents [[1], [2]] (some 2) "kmeans" = .ok labels ∧
      labels.length = ([[1], [2]] : List (List ℚ)).length ∧
      ∀ label ∈ labels, 0 ≤ label ∧ label < (2 : Int)) ∧
    cluster_documents [[1], [2]] none "kmeans"
      = cluster_documents [[1], [2]]
          (some (max 2 (Nat.sqrt ([[1], [2]] : List (List ℚ)).length))) "kmeans" :=
  C7_kmeans_labels [[1], [2]] 2 (by simp) (by norm_num)

/-- C9 counterexample: both validators are preceded by the empty-matrix
short circuit, so on an empty matrix an unsupported clustering method
returns empty labels and an unsupported metric returns the degenerate
matrix — neither fails, refuting the claim quantified over EVERY
embedding matrix. -/
theorem C9_counterexample :
    cluster_documents [] none "invalid-method" = .ok [] ∧
    compute_similarity_matrix [] "invalid-metric" = .ok [[]] :=
  ⟨rfl, rfl⟩

/-- C9 (amended): on every NON-EMPTY matrix, a clustering method outside
kmeans/dbscan and a similarity metric outside cosine/euclidean/correlation
each fail fast with the descriptive ValueError message; the empty matrix
short circuits before validation. -/
theorem C9_unknown_rejected (embeddings : List (List ℚ))
    (embR : List (List ℝ)) (n_clusters : Option Nat) (method metric : String)
    (h1 : embeddings ≠ []) (h2 : embR ≠ [])
    (hm : method ∉ (["kmeans", "dbscan"] : List String))
    (hs : metric ∉ (["cosine", "euclidean", "correlation"] : List String)) :
    cluster_documents embeddings n_clusters method
        = .error ("Unknown clustering method: " ++ method) ∧
    compute_similarity_matrix embR metric
        = .error ("Unknown metric: " ++ metric) := by
  simp only [List.mem_cons, List.mem_singleton, not_or] at hm hs
  constructor
  · unfold cluster_documents
    rw [if_neg (by simpa [List.length_eq_zero] using h1),
      if_neg hm.1, if_neg hm.2.1]
  · unfold compute_similarity_matrix
    rw [if_neg (by simpa [List.length_eq_zero] using h2),
      if_neg hs.1, if_neg hs.2.1, if_neg hs.2.2.1]

/-- C9 witness: the amended fail-fast theorem at concrete non-empty
matrices and concrete unsupported names. -/
theorem C9_witness :
    cluster_documents [[1]] none "affinity"
        = .error ("Unknown clustering method: " ++ "affinity") ∧
    compute_similarity_matrix [[(1 : ℝ)]] "manhattan"
        = .error ("Unknown metric: " ++ "manhattan") :=
  C9_unknown_rejected [[1]] [[(1 : ℝ)]] none "affinity" "manhattan"
    (by simp) (by simp) (by decide) (by decide)

/-- C10: on the empty embedding matrix the similarity computation returns,
for every metric string and without raising, np.array([[]]) — one empty
row, shape (1, 0) — which is not a 0-by-0 square matrix, so the square
shape contract does not hold in the empty case. -/
theorem C10_empty_similarity :
    ∀ metric : String,
      compute_similarity_matrix [] metric = .ok [[]] ∧
      ([[]] : List (List ℝ)).length = 1 ∧
      (∀ row ∈ ([[]] : List (List ℝ)), row.length = 0) ∧
      ¬ isSquare ([[]] : List (List ℝ)) 0 := by
  intro metric
  refine ⟨rfl, rfl, by simp, ?_⟩
  rintro ⟨hlen, _⟩
  simp at hlen

/-- C4 counterexample: on the 2-row matrix [[0], [1]] with the cosine
metric, sklearn leaves the zero row unnormalised and its diagonal entry
is 0, not 1, refuting the all-ones diagonal claim. -/
theorem C4_counterexample :
    2 ≤ ([[(0 : ℝ)], [1]] : List (List ℝ)).length ∧
    ∃ M, compute_similarity_matrix [[(0 : ℝ)], [1]] "cosine" = .ok M ∧
      ¬ diagOnes M 2 := by
  refine ⟨by simp, cosine_similarity [[(0 : ℝ)], [1]], ?_, ?_⟩
  · unfold compute_similarity_matrix
    rw [if_neg (by simp), if_pos rfl]
  · intro h
    have h0 := h 0 (by norm_num)
    unfold cosine_similarity at h0
    rw [matEntry_pairmap _ _ 0 0 (by simp) (by simp)] at h0
    simp [dotR, List.getD_cons_zero] at h0

/-- C4 (amended): for every matrix with at least 2 rows and each
implemented metric, the similarity matrix is square of size n and
symmetric, and its diagonal is all ones for the euclidean and correlation
metrics unconditionally and for the cosine metric whenever no row is the
zero vector (a zero row makes its cosine diagonal entry 0). -/
theorem C4_similarity_structure (embeddings : List (List ℝ)) (metric : String)
    (h2 : 2 ≤ embeddings.length)
    (hm : metric = "cosine" ∨ metric = "euclidean" ∨ metric = "correlation")
    (hcz : metric = "cosine" → ∀ row ∈ embeddings, ∃ t ∈ row, t ≠ 0) :
    ∃ M, compute_similarity_matrix embeddings metric = .ok M ∧
      isSquare M embeddings.length ∧ isSymmetric M embeddings.length ∧
      diagOnes M embeddings.length := by
  have hne : ¬ embeddings.length = 0 := by omega
  rcases hm with hc | he | hco
  · subst hc
    refine ⟨cosine_similarity embeddings, ?_, cosine_props embeddings (hcz rfl)⟩
    unfold compute_similarity_matrix
    rw [if_neg hne, if_pos rfl]
  · subst he
    obtain ⟨hsq, hsym, hdiag⟩ := euclidean_dist_props embeddings
    unfold compute_similarity_matrix
    rw [if_neg hne, if_neg (by decide), if_pos rfl]
    simp only []
    by_cases hmax : 0 < matMax (euclidean_distances embeddings)
    · rw [if_pos hmax]
      obtain ⟨hsq2, hent⟩ := maprows_props (euclidean_distances embeddings)
        embeddings.length
        (fun d => 1 - d / matMax (euclidean_distances embeddings)) hsq
      refine ⟨_, rfl, hsq2, ?_, ?_⟩
      · intro i hi j hj
        rw [hent i j hi hj, hent j i hj hi, hsym i hi j hj]
      · intro i hi
        rw [hent i i hi hi, hdiag i hi]
        simp
    · rw [if_neg hmax]
      obtain ⟨hsq2, hent⟩ := maprows_props (euclidean_distances embeddings)
        embeddings.length (fun _ => 1) hsq
      refine ⟨_, rfl, hsq2, ?_, ?_⟩
      · intro i hi j hj
        rw [hent i j hi hj, hent j i hj hi]
      · intro i hi
        rw [hent i i hi hi]
  · subst hco
    unfold compute_similarity_matrix
    rw [if_neg hne, if_neg (by decide), if_neg (by decide), if_pos rfl]
    obtain ⟨hsq, hsym, hdiag⟩ := correlation_props embeddings
    exact ⟨_, rfl, hsq, hsym, hdiag⟩

/-- C4 witness: the amended structure theorem at a concrete 2-row matrix
with nonzero rows under the cosine metric. -/
theorem C4_witness :
    ∃ M, compute_similarity_matrix [[(1 : ℝ)], [2]] "cosine" = .ok M ∧
      isSquare M ([[(1 : ℝ)], [2]] : List (List ℝ)).length ∧
      isSymmetric M ([[(1 : ℝ)], [2]] : List (List ℝ)).length ∧
      diagOnes M ([[(1 : ℝ)], [2]] : List (List ℝ)).length := by
  apply C4_similarity_structure [[(1 : ℝ)], [2]] "cosine" (by simp) (Or.inl rfl)
  intro _ row hrow
  simp only [List.mem_cons, List.not_mem_nil, or_false, List.mem_singleton] at hrow
  rcases hrow with h | h
  · exact ⟨1, by simp [h], by norm_num⟩
  · exact ⟨2, by simp [h], by norm_num⟩

theorem pairwise_filterMap_of_pairwise {β γ : Type} (f : β → Option γ)
    (R : β → β → Prop) (S : γ → γ → Prop) :
    ∀ l : List β, l.Pairwise R →
      (∀ a ∈ l, ∀ b ∈ l, R a b →
        ∀ c, f a = some c → ∀ d, f b = some d → S c d) →
      (l.filterMap f).Pairwise S
  | [], _, _ => by simp
  | a :: l, h, hf => by
    rw [List.filterMap_cons]
    rcases List.pairwise_cons.mp h with ⟨hR, hl⟩
    have tail := pairwise_filterMap_of_pairwise f R S l hl
      (fun x hx y hy hr => hf x (List.mem_cons_of_mem a hx) y
        (List.mem_cons_of_mem a hy) hr)
    cases hfa : f a with
    | none => exact tail
    | some c =>
      rw [List.pairwise_cons]
      refine ⟨?_, tail⟩
      intro d hd
      obtain ⟨b, hb, hbd⟩ := List.mem_filterMap.mp hd
      exact hf a (List.mem_cons_self a l) b (List.mem_cons_of_mem a hb)
        (hR b hb) c hfa d hbd

theorem mem_upperPairs (n : Nat) (p : Nat × Nat) :
    p ∈ upperPairs n ↔ p.1 < p.2 ∧ p.2 < n := by
  unfold upperPairs
  rw [List.mem_flatMap]
  constructor
  · rintro ⟨i, _, hp⟩
    obtain ⟨j, hj, hjp⟩ := List.mem_map.mp hp
    rw [List.mem_filter, List.mem_range] at hj
    rw [← hjp]
    exact ⟨by simpa using hj.2, hj.1⟩
  · rintro ⟨h12, h2⟩
    refine ⟨p.1, List.mem_range.mpr (lt_trans h12 h2), ?_⟩
    apply List.mem_map.mpr
    refine ⟨p.2, ?_, rfl⟩
    rw [List.mem_filter, List.mem_range]
    exact ⟨h2, by simpa using h12⟩

theorem nodup_upperPairs (n : Nat) : (upperPairs n).Nodup := by
  unfold upperPairs
  rw [List.nodup_flatMap]
  constructor
  · intro i _
    apply List.Nodup.map
    · intro a b hab
      simpa using hab
    · exact List.Nodup.filter _ (List.nodup_range n)
  · apply List.Pairwise.imp ?_ (List.pairwise_lt_range n)
    intro a b hab
    intro x hxa hxb
    obtain ⟨j, _, hj⟩ := List.mem_map.mp hxa
    obtain ⟨k, _, hk⟩ := List.mem_map.mp hxb
    rw [← hj] at hk
    have : b = a := congrArg Prod.fst hk
    omega

theorem edges_eq_filterMap {α : Type} [LinearOrder α] [Inhabited α]
    (sim : List (List α)) (ids : List String) (thr : α) :
    (create_network_graph sim ids thr).edges
      = (upperPairs ids.length).filterMap (fun p =>
          if thr ≤ matEntry sim p.1 p.2 then
            some (ids.getD p.1 default, ids.getD p.2 default,
              matEntry sim p.1 p.2)
          else none) := by
  show (List.range ids.length).flatMap _ = _
  unfold upperPairs
  rw [List.filterMap_flatMap]
  congr 1
  funext i
  rw [List.filterMap_map]
  rfl

theorem mem_edges_iff {α : Type} [LinearOrder α] [Inhabited α]
    (sim : List (List α)) (ids : List String) (thr : α)
    (e : String × String × α) :
    e ∈ (create_network_graph sim ids thr).edges ↔
      ∃ i j, i < j ∧ j < ids.length ∧ thr ≤ matEntry sim i j ∧
        e = (ids.getD i default, ids.getD j default, matEntry sim i j) := by
  rw [edges_eq_filterMap, List.mem_filterMap]
  constructor
  · rintro ⟨p, hp, hpe⟩
    rw [mem_upperPairs] at hp
    split_ifs at hpe with hth
    exact ⟨p.1, p.2, hp.1, hp.2, hth, (Option.some.inj hpe).symm⟩
  · rintro ⟨i, j, hij, hjn, hth, he⟩
    refine ⟨(i, j), (mem_upperPairs _ _).mpr ⟨hij, hjn⟩, ?_⟩
    rw [if_pos hth, he]

/-- C8: under matching sizes, distinct ids and a symmetric similarity
matrix, the built graph has an edge between the ith and jth documents iff
similarity[i, j] >= threshold, every such edge carries exactly that
similarity as weight, no edge is a self loop, and no unordered pair of
ids occurs in two edges. -/
theorem C8_edges_spec {α : Type} [LinearOrder α] [Inhabited α]
    (sim : List (List α)) (ids : List String) (threshold : α)
    (_hlen : sim.length = ids.length)
    (_hrow : ∀ row ∈ sim, row.length = ids.length)
    (hnodup : ids.Nodup)
    (hsym : ∀ i, i < ids.length → ∀ j, j < ids.length →
      matEntry sim i j = matEntry sim j i) :
    (∀ i, i < ids.length → ∀ j, j < ids.length → i ≠ j →
      ((∃ w, hasEdge (create_network_graph sim ids threshold)
          (ids.getD i default) (ids.getD j default) w) ↔
        threshold ≤ matEntry sim i j) ∧
      ∀ w, hasEdge (create_network_graph sim ids threshold)
          (ids.getD i default) (ids.getD j default) w →
        w = matEntry sim i j) ∧
    (∀ a w, ¬ hasEdge (create_network_graph sim ids threshold) a a w) ∧
    (create_network_graph sim ids threshold).edges.Pairwise
      (fun e f => ¬ (e.1 = f.1 ∧ e.2.1 = f.2.1) ∧
        ¬ (e.1 = f.2.1 ∧ e.2.1 = f.1)) := by
  have hinj : ∀ i j, i < ids.length → j < ids.length →
      ids.getD i default = ids.getD j default → i = j := by
    intro i j hi hj h
    rw [getD_eq_getElem_of_lt _ _ _ hi, getD_eq_getElem_of_lt _ _ _ hj] at h
    exact (List.Nodup.getElem_inj_iff hnodup).mp h
  refine ⟨?_, ?_, ?_⟩
  · intro i hi j hj hij
    have hchar : ∀ w, hasEdge (create_network_graph sim ids threshold)
        (ids.getD i default) (ids.getD j default) w ↔
        (threshold ≤ matEntry sim i j ∧ w = matEntry sim i j) := by
      intro w
      constructor
      · intro hw
        rcases hw with hmem | hmem
        · rw [mem_edges_iff] at hmem
          obtain ⟨a, b, hab, hbn, hth, he⟩ := hmem
          rw [Prod.ext_iff] at he
          obtain ⟨he1, he23⟩ := he
          rw [Prod.ext_iff] at he23
          obtain ⟨he2, he3⟩ := he23
          have ha := hinj i a hi (lt_trans hab hbn) he1
          have hb := hinj j b hj hbn he2
          subst ha
          subst hb
          exact ⟨hth, he3⟩
        · rw [mem_edges_iff] at hmem
          obtain ⟨a, b, hab, hbn, hth, he⟩ := hmem
          rw [Prod.ext_iff] at he
          obtain ⟨he1, he23⟩ := he
          rw [Prod.ext_iff] at he23
          obtain ⟨he2, he3⟩ := he23
          have ha := hinj j a hj (lt_trans hab hbn) he1
          have hb := hinj i b hi hbn he2
          subst ha
          subst hb
          rw [hsym i hi j hj]
          exact ⟨hth, he3⟩
      · rintro ⟨hth, hw⟩
        subst hw
        rcases Nat.lt_or_ge i j with hlt | hge
        · exact Or.inl ((mem_edges_iff sim ids threshold _).mpr
            ⟨i, j, hlt, hj, hth, rfl⟩)
        · have hlt : j < i := by omega
          refine Or.inr ((mem_edges_iff sim ids threshold _).mpr
            ⟨j, i, hlt, hi, ?_, ?_⟩)
          · rw [← hsym i hi j hj]
            exact hth
          · rw [hsym i hi j hj]
    refine ⟨⟨?_, ?_⟩, ?_⟩
    · rintro ⟨w, hw⟩
      exact ((hchar w).mp hw).1
    · intro hth
      exact ⟨matEntry sim i j, (hchar _).mpr ⟨hth, rfl⟩⟩
    · intro w hw
      exact ((hchar w).mp hw).2
  · intro a w hw
    have hloop : ∀ hmem : (a, a, w) ∈ (create_network_graph sim ids threshold).edges,
        False := by
      intro hmem
      rw [mem_edges_iff] at hmem
      obtain ⟨i, j, hij, hjn, _, he⟩ := hmem
      rw [Prod.ext_iff] at he
      obtain ⟨he1, he23⟩ := he
      rw [Prod.ext_iff] at he23
      obtain ⟨he2, _⟩ := he23
      exact absurd (hinj i j (lt_trans hij hjn) hjn (he1.symm.trans he2))
        (Nat.ne_of_lt hij)
    rcases hw with hmem | hmem
    · exact hloop hmem
    · exact hloop hmem
  · rw [edges_eq_filterMap]
    apply pairwise_filterMap_of_pairwise _ (fun p q : Nat × Nat => p ≠ q) _ _
      (nodup_upperPairs ids.length)
    intro p hp q hq hpq c hc d hd
    rw [mem_upperPairs] at hp hq
    split_ifs at hc with h1
    split_ifs at hd with h2
    replace hc := Option.some.inj hc
    replace hd := Option.some.inj hd
    constructor
    · rintro ⟨hx, hy⟩
      rw [← hc, ← hd] at hx hy
      have h11 := hinj p.1 q.1 (lt_trans hp.1 hp.2) (lt_trans hq.1 hq.2) hx
      have h22 := hinj p.2 q.2 hp.2 hq.2 hy
      exact hpq (Prod.ext h11 h22)
    · rintro ⟨hx, hy⟩
      rw [← hc, ← hd] at hx hy
      have h12 := hinj p.1 q.2 (lt_trans hp.1 hp.2) hq.2 hx
      have h21 := hinj p.2 q.1 hp.2 (lt_trans hq.1 hq.2) hy
      have hp12 := hp.1
      have hq12 := hq.1
      omega

/-- C8 witness: the edge characterisation at a concrete 2-by-2 integer
similarity matrix, distinct ids and threshold 1. -/
theorem C8_witness :
    (∀ i, i < (["a", "b"] : List String).length →
      ∀ j, j < (["a", "b"] : List String).length → i ≠ j →
      ((∃ w, hasEdge (create_network_graph ([[3, 2], [2, 3]] : List (List ℤ))
          ["a", "b"] 1)
          ((["a", "b"] : List String).getD i default)
          ((["a", "b"] : List String).getD j default) w) ↔
        (1 : ℤ) ≤ matEntry ([[3, 2], [2, 3]] : List (List ℤ)) i j) ∧
      ∀ w, hasEdge (create_network_graph ([[3, 2], [2, 3]] : List (List ℤ))
          ["a", "b"] 1)
          ((["a", "b"] : List String).getD i default)
          ((["a", "b"] : List String).getD j default) w →
        w = matEntry ([[3, 2], [2, 3]] : List (List ℤ)) i j) ∧
    (∀ a w, ¬ hasEdge (create_network_graph ([[3, 2], [2, 3]] : List (List ℤ))
        ["a", "b"] 1) a a w) ∧
    (create_network_graph ([[3, 2], [2, 3]] : List (List ℤ))
        ["a", "b"] 1).edges.Pairwise
      (fun e f => ¬ (e.1 = f.1 ∧ e.2.1 = f.2.1) ∧
        ¬ (e.1 = f.2.1 ∧ e.2.1 = f.1)) :=
  C8_edges_spec [[3, 2], [2, 3]] ["a", "b"] 1 (by decide) (by decide)
    (by decide) (by decide)

end PostProcessing
